import Mathlib

/-!
Shallow embedding of the Minesweeper knowledge-base inference engine
(`minesweeper.py`, classes `Sentence` and `MinesweeperAI`), together with
proofs of the specified properties.

Cells are integer coordinate pairs.  A `Sentence` pairs a finite set of
cells with an integer count, meaning "exactly `count` of these cells are
mines".  The AI state mirrors the Python object's fields; the unbounded
`while changed` fixpoint loop of `add_knowledge` is embedded with an
explicit fuel parameter, and we prove that under sound inputs the fuel
bound used by `add_knowledge` is never exhausted.
-/

namespace Minesweeper

/-- A board cell: (row, column) integer coordinates, as in the Python tuples. -/
abbrev Cell : Type := ℤ × ℤ

/-- Embeds the Python class `Sentence`: a set of board cells and a count of
how many of those cells are mines.  Counts are integers, as in Python. -/
structure Sentence where
  cells : Finset Cell
  count : ℤ
  deriving DecidableEq

/-- Embeds `Sentence.known_mines`: the full cell set if `len(self.cells) == self.count`,
else the empty set. -/
def Sentence.known_mines (s : Sentence) : Finset Cell :=
  if (s.cells.card : ℤ) = s.count then s.cells else ∅

/-- Embeds `Sentence.known_safes`: the full cell set if `self.count == 0`,
else the empty set. -/
def Sentence.known_safes (s : Sentence) : Finset Cell :=
  if s.count = 0 then s.cells else ∅

/-- Embeds `Sentence.mark_mine`: if the cell is a member, remove it and
decrement the count (the Python code does this with no assertion guarding
against the count going negative). -/
def Sentence.mark_mine (s : Sentence) (cell : Cell) : Sentence :=
  if cell ∈ s.cells then ⟨s.cells.erase cell, s.count - 1⟩ else s

/-- Embeds `Sentence.mark_safe`: if the cell is a member, remove it; the
count is unchanged. -/
def Sentence.mark_safe (s : Sentence) (cell : Cell) : Sentence :=
  if cell ∈ s.cells then ⟨s.cells.erase cell, s.count⟩ else s

/-- Embeds the mutable state of the Python class `MinesweeperAI`. -/
structure AIState where
  height : ℕ
  width : ℕ
  moves_made : Finset Cell
  mines : Finset Cell
  safes : Finset Cell
  knowledge : List Sentence
  deriving DecidableEq

/-- Embeds `MinesweeperAI.__init__`: empty knowledge base for a given grid. -/
def AIState.init (height width : ℕ) : AIState :=
  ⟨height, width, ∅, ∅, ∅, []⟩

/-- Embeds `MinesweeperAI.mark_mine`: add the cell to `self.mines` and apply
`Sentence.mark_mine` to every sentence in the knowledge list. -/
def AIState.mark_mine (st : AIState) (cell : Cell) : AIState :=
  { st with mines := insert cell st.mines,
            knowledge := st.knowledge.map (fun s => s.mark_mine cell) }

/-- Embeds `MinesweeperAI.mark_safe`: add the cell to `self.safes` and apply
`Sentence.mark_safe` to every sentence in the knowledge list. -/
def AIState.mark_safe (st : AIState) (cell : Cell) : AIState :=
  { st with safes := insert cell st.safes,
            knowledge := st.knowledge.map (fun s => s.mark_safe cell) }

/-- The lexicographic order on cells (row first, then column): the order used
by `sorted` on Python tuples, and a fixed iteration order for sets of cells. -/
def cellLe (a b : Cell) : Prop :=
  toLex a ≤ toLex b

instance : DecidableRel cellLe :=
  fun a b => inferInstanceAs (Decidable (toLex a ≤ toLex b))

instance : IsTrans Cell cellLe :=
  ⟨fun _ _ _ h h' => le_trans h h'⟩

instance : IsAntisymm Cell cellLe :=
  ⟨fun a b h h' => by
    have : toLex a = toLex b := le_antisymm h h'
    exact toLex.injective this⟩

instance : IsTotal Cell cellLe :=
  ⟨fun a b => le_total (toLex a) (toLex b)⟩

/-- A multiset of cells enumerated as a list in lexicographic order (using
insertion sort, which the kernel can evaluate). -/
def sortCellsM (m : Multiset Cell) : List Cell :=
  Quot.liftOn m (fun l => List.insertionSort cellLe l) fun _ _ h =>
    List.eq_of_perm_of_sorted
      ((List.perm_insertionSort _ _).trans (h.trans (List.perm_insertionSort _ _).symm))
      (List.sorted_insertionSort _ _) (List.sorted_insertionSort _ _)

/-- A finite set of cells enumerated as a list in a fixed (lexicographic)
order, modelling Python's iteration over a `set` of cells. -/
def sortedCells (s : Finset Cell) : List Cell :=
  sortCellsM s.val

/-- The set of all grid cells, as built by the comprehension
`{(i, j) for i in range(self.height) for j in range(self.width)}`
in `make_random_move`. -/
def gridFinset (height width : ℕ) : Finset Cell :=
  (Finset.range height ×ˢ Finset.range width).image
    (fun p => ((p.1 : ℤ), (p.2 : ℤ)))

/-- Embeds the neighbor computation of `add_knowledge`: all cells within one
row and one column of `cell`, excluding `cell` itself, clipped to the grid
bounds (`range(r-1, r+2)` is the integer interval `[r-1, r+1]`). -/
def neighbors (height width : ℕ) (cell : Cell) : Finset Cell :=
  ((Finset.Icc (cell.1 - 1) (cell.1 + 1)) ×ˢ (Finset.Icc (cell.2 - 1) (cell.2 + 1))).filter
    (fun p => p ≠ cell ∧ 0 ≤ p.1 ∧ p.1 < (height : ℤ) ∧ 0 ≤ p.2 ∧ p.2 < (width : ℤ))

/-- Embeds steps 1-4 of `MinesweeperAI.add_knowledge` (everything before the
fixpoint loop): record the move, mark the cell safe, compute the pruned
neighbor set and adjusted count, and append the new sentence unless it is
empty or already present.  The pruning loop checks `n in self.safes` before
`n in self.mines` and skips without decrementing, so only neighbors that are
known mines and not known safes decrement the count. -/
def ingest (st : AIState) (cell : Cell) (count : ℤ) : AIState :=
  let st1 : AIState := { st with moves_made := insert cell st.moves_made }
  let st2 : AIState := st1.mark_safe cell
  let nbrs : Finset Cell := neighbors st.height st.width cell
  let adjusted_count : ℤ :=
    count - ((nbrs.filter (fun n => n ∉ st2.safes ∧ n ∈ st2.mines)).card : ℤ)
  let pruned : Finset Cell := nbrs.filter (fun n => n ∉ st2.safes ∧ n ∉ st2.mines)
  if pruned.Nonempty then
    let new_sentence : Sentence := ⟨pruned, adjusted_count⟩
    if new_sentence ∈ st2.knowledge then st2
    else { st2 with knowledge := st2.knowledge ++ [new_sentence] }
  else st2

/-- The union of `known_safes()` over the knowledge list, as collected by the
direct-deduction pass before any marking happens. -/
def toMarkSafe (K : List Sentence) : Finset Cell :=
  K.foldl (fun acc s => acc ∪ s.known_safes) ∅

/-- The union of `known_mines()` over the knowledge list, as collected by the
direct-deduction pass before any marking happens. -/
def toMarkMine (K : List Sentence) : Finset Cell :=
  K.foldl (fun acc s => acc ∪ s.known_mines) ∅

/-- Applying `MinesweeperAI.mark_safe` to every cell of a list in order. -/
def markAllSafe (st : AIState) (l : List Cell) : AIState :=
  l.foldl AIState.mark_safe st

/-- Applying `MinesweeperAI.mark_mine` to every cell of a list in order. -/
def markAllMine (st : AIState) (l : List Cell) : AIState :=
  l.foldl AIState.mark_mine st

/-- One candidate step of the subset-inference pass: for the ordered pair
`(a, b)`, if both cell sets are nonempty and `a.cells` is a strict subset of
`b.cells`, build the difference sentence and append it to the accumulator
unless an equal sentence is already in the knowledge list or the accumulator.
The Python `a is b` identity check is subsumed by the strict-subset test,
since identical sentences have equal cell sets. -/
def inferStep (K : List Sentence) (acc : List Sentence) (a b : Sentence) : List Sentence :=
  if a.cells.Nonempty ∧ b.cells.Nonempty ∧ a.cells ⊂ b.cells then
    let diff_cells : Finset Cell := b.cells \ a.cells
    let diff_count : ℤ := b.count - a.count
    if diff_cells.Nonempty then
      let inferred : Sentence := ⟨diff_cells, diff_count⟩
      if inferred ∉ K ∧ inferred ∉ acc then acc ++ [inferred] else acc
    else acc
  else acc

/-- The `new_inferred` list built by one subset-inference pass over all
ordered pairs of the knowledge list. -/
def newInferred (K : List Sentence) : List Sentence :=
  K.foldl (fun acc a => K.foldl (fun acc2 b => inferStep K acc2 a b) acc) []

/-- The marking phase of one loop iteration: both to-mark sets are computed
from the pre-iteration knowledge, then all safes are marked, then all mines. -/
def markPhase (st : AIState) : AIState :=
  markAllMine (markAllSafe st (sortedCells (toMarkSafe st.knowledge)))
    (sortedCells (toMarkMine st.knowledge))

/-- One full body of the `while changed` loop of `add_knowledge`: the
direct-deduction marking phase followed by extending the knowledge list with
the subset-inference pass over the post-marking knowledge. -/
def loopBody (st : AIState) : AIState :=
  let st2 : AIState := markPhase st
  { st2 with knowledge := st2.knowledge ++ newInferred st2.knowledge }

/-- The `changed` flag computed by one body execution started from `st`:
some cell was collected for marking, or the subset-inference pass over the
post-marking knowledge produced at least one new sentence. -/
def loopChanged (st : AIState) : Prop :=
  toMarkSafe st.knowledge ≠ ∅ ∨ toMarkMine st.knowledge ≠ ∅ ∨
    newInferred (markPhase st).knowledge ≠ []

instance (st : AIState) : Decidable (loopChanged st) := by
  unfold loopChanged
  exact inferInstance

/-- The fuelled fixpoint loop: run the body, and repeat while the body
reported a change, as long as fuel remains. -/
def loopFuel : ℕ → AIState → AIState
  | 0, st => st
  | n + 1, st =>
      let st' := loopBody st
      if loopChanged st then loopFuel n st' else st'

/-- Fuel that provably suffices for the fixpoint loop on sound states: one
unit more than the maximal value of the termination measure. -/
def fuelBound (height width : ℕ) : ℕ :=
  (height * width + 1) * (2 ^ (height * width) + 1) + 1

/-- Embeds `MinesweeperAI.add_knowledge`: the ingestion steps followed by the
fixpoint loop (run with the provably sufficient fuel). -/
def add_knowledge (st : AIState) (cell : Cell) (count : ℤ) : AIState :=
  loopFuel (fuelBound st.height st.width) (ingest st cell count)

/-- Embeds `MinesweeperAI.make_safe_move`: the first element of
`sorted(self.safes - self.moves_made)` (lexicographic minimum, row first,
then column), or none if no candidate exists. -/
def make_safe_move (st : AIState) : Option Cell :=
  let candidates : Finset Cell := st.safes \ st.moves_made
  if h : candidates.Nonempty then
    some (ofLex ((candidates.image toLex).min' (h.image toLex)))
  else none

/-- Embeds `MinesweeperAI.make_random_move` with the randomness injected as a
natural number `k`: `random.choice` picks an index below the length of the
candidate list, modelled as `k` reduced modulo that length. -/
def make_random_move (st : AIState) (k : ℕ) : Option Cell :=
  let all_cells : Finset Cell := gridFinset st.height st.width
  let candidates : List Cell := sortedCells ((all_cells \ st.moves_made) \ st.mines)
  if h : candidates = [] then none
  else some (candidates.get ⟨k % candidates.length,
    Nat.mod_lt _ (List.length_pos.mpr h)⟩)

/-- Every cell of every stored sentence lies within the grid bounds. -/
def InGrid (st : AIState) : Prop :=
  ∀ s ∈ st.knowledge, ∀ c ∈ s.cells,
    0 ≤ c.1 ∧ c.1 < (st.height : ℤ) ∧ 0 ≤ c.2 ∧ c.2 < (st.width : ℤ)

/-- No cell of any stored sentence is already known safe or known mine. -/
def Purged (st : AIState) : Prop :=
  ∀ s ∈ st.knowledge, ∀ c ∈ s.cells, c ∉ st.safes ∧ c ∉ st.mines

/-- A sentence is true of the actual mine set `M` when its count equals the
number of its cells that are mines. -/
def STrue (M : Finset Cell) (s : Sentence) : Prop :=
  (((s.cells ∩ M).card : ℤ)) = s.count

/-- Soundness invariant of the knowledge base with respect to the actual mine
set `M`: known mines are mines, known safes are not mines, every stored
sentence is true, no stored sentence mentions a known cell, and all stored
cells are in the grid. -/
def Inv (M : Finset Cell) (st : AIState) : Prop :=
  st.mines ⊆ M ∧ (∀ c ∈ st.safes, c ∉ M) ∧
    (∀ s ∈ st.knowledge, STrue M s) ∧ Purged st ∧ InGrid st

instance (st : AIState) : Decidable (InGrid st) := by
  unfold InGrid
  exact inferInstance

instance (st : AIState) : Decidable (Purged st) := by
  unfold Purged
  exact inferInstance

instance (M : Finset Cell) (st : AIState) : Decidable (Inv M st) := by
  unfold Inv STrue
  exact inferInstance

/-- The number of known cells inside the grid: grows by at least one whenever
a marking pass marks anything. -/
def markedCard (st : AIState) : ℕ :=
  ((st.safes ∪ st.mines) ∩ gridFinset st.height st.width).card

/-- The number of distinct sentence values in the knowledge list: grows
whenever the subset-inference pass appends anything. -/
def sentVals (st : AIState) : ℕ :=
  st.knowledge.toFinset.card

/-- A strict upper bound for `sentVals` on sound states (a true sentence is
determined by its cell set, a subset of the grid). -/
def bigB (height width : ℕ) : ℕ :=
  2 ^ (height * width) + 1

/-- Termination measure for the fixpoint loop: lexicographic combination of
unknown grid cells and not-yet-present sentence values. -/
def loopMeasure (st : AIState) : ℕ :=
  (st.height * st.width - markedCard st) * bigB st.height st.width +
    (bigB st.height st.width - sentVals st)

section SentenceLemmas

theorem mark_safe_cells_subset (s : Sentence) (c : Cell) :
    (s.mark_safe c).cells ⊆ s.cells := by
  unfold Sentence.mark_safe
  split_ifs
  · exact Finset.erase_subset _ _
  · exact subset_rfl

theorem mark_mine_cells_subset (s : Sentence) (c : Cell) :
    (s.mark_mine c).cells ⊆ s.cells := by
  unfold Sentence.mark_mine
  split_ifs
  · exact Finset.erase_subset _ _
  · exact subset_rfl

theorem not_mem_mark_safe_cells (s : Sentence) (c : Cell) :
    c ∉ (s.mark_safe c).cells := by
  unfold Sentence.mark_safe
  split_ifs with h
  · exact Finset.not_mem_erase _ _
  · exact h

theorem not_mem_mark_mine_cells (s : Sentence) (c : Cell) :
    c ∉ (s.mark_mine c).cells := by
  unfold Sentence.mark_mine
  split_ifs with h
  · exact Finset.not_mem_erase _ _
  · exact h

theorem mark_safe_of_not_mem {s : Sentence} {c : Cell} (h : c ∉ s.cells) :
    s.mark_safe c = s := by
  unfold Sentence.mark_safe
  exact if_neg h

theorem mark_mine_of_not_mem {s : Sentence} {c : Cell} (h : c ∉ s.cells) :
    s.mark_mine c = s := by
  unfold Sentence.mark_mine
  exact if_neg h

theorem list_map_eq_self {α : Type} {f : α → α} :
    ∀ {l : List α}, (∀ x ∈ l, f x = x) → l.map f = l
  | [], _ => rfl
  | x :: xs, h => by
      simp only [List.map_cons]
      rw [h x (List.mem_cons_self x xs), list_map_eq_self (fun y hy => h y (List.mem_cons_of_mem _ hy))]

end SentenceLemmas

/-- C2: for every constraint, the known-mines query returns exactly the full
cell set when the count equals the number of cells and the empty set
otherwise, and the known-safes query returns exactly the full cell set when
the count is zero and the empty set otherwise; a constraint `{a,b,c}` with
count 0 yields a, b, c as safe and a constraint `{a,b}` with count 2 yields
both as mines. -/
theorem known_queries_correct :
    (∀ (s : Sentence),
      (((s.cells.card : ℤ) = s.count → s.known_mines = s.cells) ∧
        ((s.cells.card : ℤ) ≠ s.count → s.known_mines = ∅)) ∧
      ((s.count = 0 → s.known_safes = s.cells) ∧
        (s.count ≠ 0 → s.known_safes = ∅))) ∧
    (Sentence.known_safes ⟨{((0:ℤ),(0:ℤ)), ((0:ℤ),(1:ℤ)), ((0:ℤ),(2:ℤ))}, 0⟩ =
      {((0:ℤ),(0:ℤ)), ((0:ℤ),(1:ℤ)), ((0:ℤ),(2:ℤ))}) ∧
    (Sentence.known_mines ⟨{((0:ℤ),(0:ℤ)), ((0:ℤ),(1:ℤ))}, 2⟩ =
      {((0:ℤ),(0:ℤ)), ((0:ℤ),(1:ℤ))}) := by
  refine ⟨fun s => ⟨⟨fun h => ?_, fun h => ?_⟩, fun h => ?_, fun h => ?_⟩, by decide, by decide⟩
  · unfold Sentence.known_mines
    exact if_pos h
  · unfold Sentence.known_mines
    exact if_neg h
  · unfold Sentence.known_safes
    exact if_pos h
  · unfold Sentence.known_safes
    exact if_neg h

/-- C2 witness: the general part evaluated at the concrete constraint
`{(0,0)}` with count 1. -/
theorem known_queries_correct_witness :
    ((((Finset.card {((0:ℤ),(0:ℤ))} : ℤ) = 1 → Sentence.known_mines ⟨{((0:ℤ),(0:ℤ))}, 1⟩ = {((0:ℤ),(0:ℤ))}) ∧
      (((Finset.card {((0:ℤ),(0:ℤ))} : ℤ) ≠ 1 → Sentence.known_mines ⟨{((0:ℤ),(0:ℤ))}, 1⟩ = ∅))) ∧
     (((1:ℤ) = 0 → Sentence.known_safes ⟨{((0:ℤ),(0:ℤ))}, 1⟩ = {((0:ℤ),(0:ℤ))}) ∧
      ((1:ℤ) ≠ 0 → Sentence.known_safes ⟨{((0:ℤ),(0:ℤ))}, 1⟩ = ∅))) :=
  known_queries_correct.1 ⟨{((0:ℤ),(0:ℤ))}, 1⟩

/-- C6 counterexample: applying the known-mine update to the well-formed
constraint `{(0,0)}` with count 0 does not fail: it silently removes the cell
and drives the count to −1. -/
theorem mark_mine_no_assertion_cex :
    Sentence.mark_mine ⟨{((0:ℤ),(0:ℤ))}, 0⟩ ((0:ℤ),(0:ℤ)) = ⟨∅, -1⟩ ∧
    (Sentence.mark_mine ⟨{((0:ℤ),(0:ℤ))}, 0⟩ ((0:ℤ),(0:ℤ))).count < 0 := by
  constructor
  · decide
  · decide

/-- C6 amended: if the known-mine update is applied to a constraint whose
count is zero and which contains the cell, the implementation silently
removes the cell and decrements the count to −1, producing a constraint with
negative count; no assertion or failure occurs. -/
theorem mark_mine_silent_negative (s : Sentence) (c : Cell)
    (hc : c ∈ s.cells) (h0 : s.count = 0) :
    s.mark_mine c = ⟨s.cells.erase c, -1⟩ ∧ (s.mark_mine c).count < 0 := by
  unfold Sentence.mark_mine
  rw [if_pos hc, h0]
  norm_num

/-- C6 amended witness. -/
theorem mark_mine_silent_negative_witness :
    Sentence.mark_mine ⟨{((0:ℤ),(0:ℤ))}, 0⟩ ((0:ℤ),(0:ℤ)) =
      ⟨Finset.erase {((0:ℤ),(0:ℤ))} ((0:ℤ),(0:ℤ)), -1⟩ ∧
    (Sentence.mark_mine ⟨{((0:ℤ),(0:ℤ))}, 0⟩ ((0:ℤ),(0:ℤ))).count < 0 :=
  mark_mine_silent_negative ⟨{((0:ℤ),(0:ℤ))}, 0⟩ ((0:ℤ),(0:ℤ)) (by decide) rfl

/-- C7: marking an already-known-safe (respectively already-known-mine) cell
again leaves the knowledge base observably unchanged, on any state satisfying
the standing invariant that known cells are purged from every stored
constraint. -/
theorem mark_idempotent (st : AIState) (c : Cell) :
    (c ∈ st.safes → (∀ s ∈ st.knowledge, c ∉ s.cells) → st.mark_safe c = st) ∧
    (c ∈ st.mines → (∀ s ∈ st.knowledge, c ∉ s.cells) → st.mark_mine c = st) := by
  constructor
  · intro hc hk
    unfold AIState.mark_safe
    rw [Finset.insert_eq_self.mpr hc,
      list_map_eq_self (fun s hs => mark_safe_of_not_mem (hk s hs))]
  · intro hc hk
    unfold AIState.mark_mine
    rw [Finset.insert_eq_self.mpr hc,
      list_map_eq_self (fun s hs => mark_mine_of_not_mem (hk s hs))]

/-- C7 witness: re-marking on a concrete state with one known safe cell, one
known mine and one live constraint. -/
theorem mark_idempotent_witness :
    (((0:ℤ),(0:ℤ)) ∈ ({((0:ℤ),(0:ℤ))} : Finset Cell) ∧
      AIState.mark_safe ⟨2, 2, ∅, {((1:ℤ),(1:ℤ))}, {((0:ℤ),(0:ℤ))}, [⟨{((0:ℤ),(1:ℤ))}, 1⟩]⟩ ((0:ℤ),(0:ℤ)) =
        ⟨2, 2, ∅, {((1:ℤ),(1:ℤ))}, {((0:ℤ),(0:ℤ))}, [⟨{((0:ℤ),(1:ℤ))}, 1⟩]⟩) ∧
    (((1:ℤ),(1:ℤ)) ∈ ({((1:ℤ),(1:ℤ))} : Finset Cell) ∧
      AIState.mark_mine ⟨2, 2, ∅, {((1:ℤ),(1:ℤ))}, {((0:ℤ),(0:ℤ))}, [⟨{((0:ℤ),(1:ℤ))}, 1⟩]⟩ ((1:ℤ),(1:ℤ)) =
        ⟨2, 2, ∅, {((1:ℤ),(1:ℤ))}, {((0:ℤ),(0:ℤ))}, [⟨{((0:ℤ),(1:ℤ))}, 1⟩]⟩) := by
  refine ⟨⟨by decide, ?_⟩, ⟨by decide, ?_⟩⟩
  · exact (mark_idempotent ⟨2, 2, ∅, {((1:ℤ),(1:ℤ))}, {((0:ℤ),(0:ℤ))}, [⟨{((0:ℤ),(1:ℤ))}, 1⟩]⟩
      ((0:ℤ),(0:ℤ))).1 (by decide) (by decide)
  · exact (mark_idempotent ⟨2, 2, ∅, {((1:ℤ),(1:ℤ))}, {((0:ℤ),(0:ℤ))}, [⟨{((0:ℤ),(1:ℤ))}, 1⟩]⟩
      ((1:ℤ),(1:ℤ))).2 (by decide) (by decide)

section MoveLemmas

theorem coe_sortCellsM (m : Multiset Cell) : (sortCellsM m : Multiset Cell) = m :=
  Quot.inductionOn m fun l => Quot.sound (List.perm_insertionSort cellLe l)

theorem mem_sortedCells {s : Finset Cell} {c : Cell} :
    c ∈ sortedCells s ↔ c ∈ s := by
  unfold sortedCells
  rw [← Multiset.mem_coe, coe_sortCellsM]
  exact Iff.rfl

theorem sortedCells_nodup (s : Finset Cell) : (sortedCells s).Nodup := by
  have : ((sortedCells s : List Cell) : Multiset Cell).Nodup := by
    unfold sortedCells
    rw [coe_sortCellsM]
    exact s.nodup
  exact this

theorem sortedCells_eq_nil {s : Finset Cell} :
    sortedCells s = [] ↔ s = ∅ := by
  constructor
  · intro h
    apply Finset.eq_empty_iff_forall_not_mem.mpr
    intro c hc
    have : c ∈ sortedCells s := mem_sortedCells.mpr hc
    rw [h] at this
    exact absurd this (List.not_mem_nil c)
  · intro h
    subst h
    rfl

theorem mem_gridFinset {height width : ℕ} {c : Cell} :
    c ∈ gridFinset height width ↔
      0 ≤ c.1 ∧ c.1 < (height : ℤ) ∧ 0 ≤ c.2 ∧ c.2 < (width : ℤ) := by
  unfold gridFinset
  simp only [Finset.mem_image, Finset.mem_product, Finset.mem_range, Prod.exists]
  constructor
  · rintro ⟨i, j, ⟨hi, hj⟩, rfl⟩
    dsimp only
    refine ⟨Int.natCast_nonneg i, ?_, Int.natCast_nonneg j, ?_⟩
    · exact_mod_cast hi
    · exact_mod_cast hj
  · rintro ⟨h1, h2, h3, h4⟩
    refine ⟨c.1.toNat, c.2.toNat, ⟨?_, ?_⟩, ?_⟩
    · omega
    · omega
    · have e1 : (c.1.toNat : ℤ) = c.1 := Int.toNat_of_nonneg h1
      have e2 : (c.2.toNat : ℤ) = c.2 := Int.toNat_of_nonneg h3
      exact Prod.ext e1 e2

end MoveLemmas

/-- C8: `make_safe_move` returns the smallest cell (row first, then column)
of `safes` minus `moves_made`, returns none exactly when no such cell exists,
and never returns a cell already in `moves_made`.  It is a pure function of
the state, so it mutates nothing. -/
theorem make_safe_move_spec (st : AIState) :
    (make_safe_move st = none ↔ st.safes \ st.moves_made = ∅) ∧
    (∀ c : Cell, make_safe_move st = some c →
      c ∈ st.safes ∧ c ∉ st.moves_made ∧
        ∀ d ∈ st.safes \ st.moves_made, c.1 < d.1 ∨ (c.1 = d.1 ∧ c.2 ≤ d.2)) := by
  unfold make_safe_move
  by_cases h : (st.safes \ st.moves_made).Nonempty
  · rw [dif_pos h]
    constructor
    · simp only [reduceCtorEq, false_iff]
      intro he
      rw [he] at h
      exact absurd h (by simp)
    · intro c hc
      have hc' : c = ofLex (((st.safes \ st.moves_made).image toLex).min' (h.image toLex)) :=
        (Option.some.inj hc).symm
      have hmem : ((st.safes \ st.moves_made).image toLex).min' (h.image toLex) ∈
          (st.safes \ st.moves_made).image toLex :=
        Finset.min'_mem _ _
      obtain ⟨y, hy, hy2⟩ := Finset.mem_image.mp hmem
      have hcy : c = y := by
        rw [hc', ← hy2]
        rfl
      obtain ⟨hys, hym⟩ := Finset.mem_sdiff.mp hy
      subst hcy
      refine ⟨hys, hym, fun d hd => ?_⟩
      have hle : toLex c ≤ toLex d := by
        rw [hy2]
        exact Finset.min'_le _ _ (Finset.mem_image_of_mem toLex hd)
      exact (Prod.Lex.le_iff c d).mp hle
  · rw [dif_neg h]
    refine ⟨?_, fun c hc => by exact absurd hc (by simp)⟩
    simp only [true_iff]
    exact Finset.not_nonempty_iff_eq_empty.mp h

/-- C8 witness: on a concrete state the returned move is the lexicographically
smallest not-yet-made safe cell. -/
theorem make_safe_move_spec_witness :
    ((0:ℤ),(1:ℤ)) ∈ (⟨2, 2, {((0:ℤ),(0:ℤ))}, ∅, {((0:ℤ),(0:ℤ)), ((0:ℤ),(1:ℤ)), ((1:ℤ),(0:ℤ))}, []⟩ : AIState).safes ∧
    ((0:ℤ),(1:ℤ)) ∉ (⟨2, 2, {((0:ℤ),(0:ℤ))}, ∅, {((0:ℤ),(0:ℤ)), ((0:ℤ),(1:ℤ)), ((1:ℤ),(0:ℤ))}, []⟩ : AIState).moves_made ∧
    ∀ d ∈ (⟨2, 2, {((0:ℤ),(0:ℤ))}, ∅, {((0:ℤ),(0:ℤ)), ((0:ℤ),(1:ℤ)), ((1:ℤ),(0:ℤ))}, []⟩ : AIState).safes \
        (⟨2, 2, {((0:ℤ),(0:ℤ))}, ∅, {((0:ℤ),(0:ℤ)), ((0:ℤ),(1:ℤ)), ((1:ℤ),(0:ℤ))}, []⟩ : AIState).moves_made,
      (0:ℤ) < d.1 ∨ ((0:ℤ) = d.1 ∧ (1:ℤ) ≤ d.2) :=
  (make_safe_move_spec ⟨2, 2, {((0:ℤ),(0:ℤ))}, ∅, {((0:ℤ),(0:ℤ)), ((0:ℤ),(1:ℤ)), ((1:ℤ),(0:ℤ))}, []⟩).2
    ((0:ℤ),(1:ℤ)) (by decide)

/-- C9: `make_random_move` only ever returns a cell of the grid that is
neither an already-made move nor a known mine; it returns none exactly when
no such cell exists, and in particular on a degenerate grid (height or width
zero) it returns none rather than failing.  It is a pure function of the
state and the injected randomness, so it mutates nothing. -/
theorem make_random_move_spec (st : AIState) (k : ℕ) :
    (make_random_move st k = none ↔
      (gridFinset st.height st.width \ st.moves_made) \ st.mines = ∅) ∧
    (∀ c : Cell, make_random_move st k = some c →
      c ∈ gridFinset st.height st.width ∧ c ∉ st.moves_made ∧ c ∉ st.mines) ∧
    (st.height = 0 ∨ st.width = 0 → make_random_move st k = none) := by
  unfold make_random_move
  by_cases h : sortedCells ((gridFinset st.height st.width \ st.moves_made) \ st.mines) = []
  · rw [dif_pos h]
    refine ⟨by simp [sortedCells_eq_nil.mp h], fun c hc => by exact absurd hc (by simp), fun _ => rfl⟩
  · rw [dif_neg h]
    refine ⟨?_, fun c hc => ?_, fun hdeg => ?_⟩
    · simp only [reduceCtorEq, false_iff]
      intro he
      exact h (by rw [sortedCells_eq_nil, he])
    · have hc' : c ∈ sortedCells ((gridFinset st.height st.width \ st.moves_made) \ st.mines) := by
        rw [← Option.some.inj hc]
        exact List.get_mem _ _ _
      have := mem_sortedCells.mp hc'
      rw [Finset.mem_sdiff] at this
      obtain ⟨this1, h3⟩ := this
      rw [Finset.mem_sdiff] at this1
      exact ⟨this1.1, this1.2, h3⟩
    · exfalso
      apply h
      rw [sortedCells_eq_nil]
      have hg : gridFinset st.height st.width = ∅ := by
        cases hdeg with
        | inl h0 => unfold gridFinset; rw [h0]; simp
        | inr h0 => unfold gridFinset; rw [h0]; simp
      rw [hg]
      simp

/-- C9 witness: on a concrete 2×2 state the guessed move avoids the made move
and the known mine, and a degenerate grid yields none. -/
theorem make_random_move_spec_witness :
    (((1:ℤ),(0:ℤ)) ∈ gridFinset 2 2 ∧
      ((1:ℤ),(0:ℤ)) ∉ (⟨2, 2, {((0:ℤ),(0:ℤ))}, {((1:ℤ),(1:ℤ))}, ∅, []⟩ : AIState).moves_made ∧
      ((1:ℤ),(0:ℤ)) ∉ (⟨2, 2, {((0:ℤ),(0:ℤ))}, {((1:ℤ),(1:ℤ))}, ∅, []⟩ : AIState).mines) ∧
    make_random_move (⟨0, 5, ∅, ∅, ∅, []⟩ : AIState) 3 = none := by
  constructor
  · exact (make_random_move_spec ⟨2, 2, {((0:ℤ),(0:ℤ))}, {((1:ℤ),(1:ℤ))}, ∅, []⟩ 5).2.1
      ((1:ℤ),(0:ℤ)) (by decide)
  · exact (make_random_move_spec ⟨0, 5, ∅, ∅, ∅, []⟩ 3).2.2 (Or.inl rfl)

/-- C4: ingesting a cell with a supplied count records the cell in
`moves_made`, marks it safe, splits the in-bounds neighbors into three
disjoint groups — known-safe (dropped), known-mine among the remainder
(dropped, decrementing the count once per such neighbor; the known-safe
check runs first, so a cell in both sets does not decrement) and unknown
(kept) — and appends the sentence built from the unknown neighbors and the
adjusted count unless it is empty or an equal sentence is already stored,
so no duplicate entry is created.  The knowledge list against which
deduplication runs is the stored list after the freshly ingested cell has
been purged from it. -/
theorem add_knowledge_ingest_spec (st : AIState) (cell : Cell) (count : ℤ) :
    add_knowledge st cell count =
      loopFuel (fuelBound st.height st.width) (ingest st cell count) ∧
    (ingest st cell count).moves_made = insert cell st.moves_made ∧
    (ingest st cell count).safes = insert cell st.safes ∧
    (ingest st cell count).mines = st.mines ∧
    (ingest st cell count).knowledge =
      (if (neighbors st.height st.width cell \ insert cell st.safes) \ st.mines ≠ ∅ ∧
          (⟨(neighbors st.height st.width cell \ insert cell st.safes) \ st.mines,
            count - (((neighbors st.height st.width cell \ insert cell st.safes) ∩ st.mines).card : ℤ)⟩ : Sentence) ∉
            st.knowledge.map (fun s => s.mark_safe cell)
       then st.knowledge.map (fun s => s.mark_safe cell) ++
          [⟨(neighbors st.height st.width cell \ insert cell st.safes) \ st.mines,
            count - (((neighbors st.height st.width cell \ insert cell st.safes) ∩ st.mines).card : ℤ)⟩]
       else st.knowledge.map (fun s => s.mark_safe cell)) := by
  have hpr : (neighbors st.height st.width cell).filter
      (fun n => n ∉ (({ st with moves_made := insert cell st.moves_made } : AIState).mark_safe cell).safes ∧
        n ∉ (({ st with moves_made := insert cell st.moves_made } : AIState).mark_safe cell).mines) =
      (neighbors st.height st.width cell \ insert cell st.safes) \ st.mines := by
    ext x
    simp only [Finset.mem_filter, Finset.mem_sdiff, AIState.mark_safe]
    tauto
  have had : (neighbors st.height st.width cell).filter
      (fun n => n ∉ (({ st with moves_made := insert cell st.moves_made } : AIState).mark_safe cell).safes ∧
        n ∈ (({ st with moves_made := insert cell st.moves_made } : AIState).mark_safe cell).mines) =
      (neighbors st.height st.width cell \ insert cell st.safes) ∩ st.mines := by
    ext x
    simp only [Finset.mem_filter, Finset.mem_sdiff, Finset.mem_inter, AIState.mark_safe]
    tauto
  refine ⟨rfl, ?_, ?_, ?_, ?_⟩
  · unfold ingest
    simp only [AIState.mark_safe]
    split_ifs <;> rfl
  · unfold ingest
    simp only [AIState.mark_safe]
    split_ifs <;> rfl
  · unfold ingest
    simp only [AIState.mark_safe]
    split_ifs <;> rfl
  · unfold ingest
    simp only [hpr, had]
    by_cases h1 : ((neighbors st.height st.width cell \ insert cell st.safes) \ st.mines).Nonempty
    · rw [if_pos h1]
      by_cases h2 : (⟨(neighbors st.height st.width cell \ insert cell st.safes) \ st.mines,
          count - (((neighbors st.height st.width cell \ insert cell st.safes) ∩ st.mines).card : ℤ)⟩ : Sentence) ∈
          (({ st with moves_made := insert cell st.moves_made } : AIState).mark_safe cell).knowledge
      · rw [if_pos h2]
        have h2' : (⟨(neighbors st.height st.width cell \ insert cell st.safes) \ st.mines,
            count - (((neighbors st.height st.width cell \ insert cell st.safes) ∩ st.mines).card : ℤ)⟩ : Sentence) ∈
            st.knowledge.map (fun s => s.mark_safe cell) := h2
        rw [if_neg (by simp [h2'])]
        rfl
      · rw [if_neg h2]
        have h2' : (⟨(neighbors st.height st.width cell \ insert cell st.safes) \ st.mines,
            count - (((neighbors st.height st.width cell \ insert cell st.safes) ∩ st.mines).card : ℤ)⟩ : Sentence) ∉
            st.knowledge.map (fun s => s.mark_safe cell) := h2
        rw [if_pos ⟨Finset.nonempty_iff_ne_empty.mp h1, h2'⟩]
        rfl
    · rw [if_neg h1]
      rw [if_neg (by simp [Finset.not_nonempty_iff_eq_empty.mp h1])]
      rfl

/-- C4 witness: ingesting cell (0,1) with count 1 on a 1×3 grid where (0,0)
is already known safe drops the safe neighbor, keeps the unknown neighbor
(0,2), and appends the adjusted sentence. -/
theorem add_knowledge_ingest_spec_witness :
    (ingest ⟨1, 3, {((0:ℤ),(0:ℤ))}, ∅, {((0:ℤ),(0:ℤ))}, []⟩ ((0:ℤ),(1:ℤ)) 1).moves_made =
      insert ((0:ℤ),(1:ℤ)) {((0:ℤ),(0:ℤ))} ∧
    (ingest ⟨1, 3, {((0:ℤ),(0:ℤ))}, ∅, {((0:ℤ),(0:ℤ))}, []⟩ ((0:ℤ),(1:ℤ)) 1).safes =
      insert ((0:ℤ),(1:ℤ)) {((0:ℤ),(0:ℤ))} ∧
    (ingest ⟨1, 3, {((0:ℤ),(0:ℤ))}, ∅, {((0:ℤ),(0:ℤ))}, []⟩ ((0:ℤ),(1:ℤ)) 1).mines = ∅ ∧
    (ingest ⟨1, 3, {((0:ℤ),(0:ℤ))}, ∅, {((0:ℤ),(0:ℤ))}, []⟩ ((0:ℤ),(1:ℤ)) 1).knowledge =
      [⟨{((0:ℤ),(2:ℤ))}, 1⟩] := by
  have h := add_knowledge_ingest_spec ⟨1, 3, {((0:ℤ),(0:ℤ))}, ∅, {((0:ℤ),(0:ℤ))}, []⟩ ((0:ℤ),(1:ℤ)) 1
  refine ⟨h.2.1, h.2.2.1, h.2.2.2.1, ?_⟩
  rw [h.2.2.2.2]
  decide

section InferLemmas

theorem mem_inferStep_of_mem {K acc : List Sentence} {a b x : Sentence} (hx : x ∈ acc) :
    x ∈ inferStep K acc a b := by
  unfold inferStep
  dsimp only
  split_ifs <;> first
    | exact hx
    | exact List.mem_append_left _ hx

theorem innerFold_mono {K : List Sentence} {a x : Sentence} :
    ∀ {L acc : List Sentence}, x ∈ acc →
      x ∈ L.foldl (fun acc2 b => inferStep K acc2 a b) acc
  | [], _, hx => hx
  | _ :: bs, _, hx => innerFold_mono (L := bs) (mem_inferStep_of_mem hx)

theorem outerFold_mono {K : List Sentence} {x : Sentence} :
    ∀ {L acc : List Sentence}, x ∈ acc →
      x ∈ L.foldl (fun acc a => K.foldl (fun acc2 b => inferStep K acc2 a b) acc) acc
  | [], _, hx => hx
  | _ :: as, _, hx => outerFold_mono (L := as) (innerFold_mono hx)

theorem mem_inferStep_cases {K acc : List Sentence} {a b x : Sentence}
    (hx : x ∈ inferStep K acc a b) :
    x ∈ acc ∨ (a.cells.Nonempty ∧ a.cells ⊂ b.cells ∧
      x = ⟨b.cells \ a.cells, b.count - a.count⟩ ∧ x ∉ K) := by
  unfold inferStep at hx
  dsimp only at hx
  split_ifs at hx with h1 h2 h3
  · rcases List.mem_append.mp hx with h | h
    · exact Or.inl h
    · have hx' : x = (⟨b.cells \ a.cells, b.count - a.count⟩ : Sentence) :=
        List.mem_singleton.mp h
      refine Or.inr ⟨h1.1, h1.2.2, hx', ?_⟩
      rw [hx']
      exact h3.1
  · exact Or.inl hx
  · exact Or.inl hx
  · exact Or.inl hx

theorem mem_innerFold_cases {K : List Sentence} {a : Sentence} :
    ∀ {L acc : List Sentence} {x : Sentence},
      x ∈ L.foldl (fun acc2 b => inferStep K acc2 a b) acc →
      x ∈ acc ∨ ∃ b ∈ L, a.cells.Nonempty ∧ a.cells ⊂ b.cells ∧
        x = ⟨b.cells \ a.cells, b.count - a.count⟩ ∧ x ∉ K
  | [], _, _, hx => Or.inl hx
  | b :: bs, acc, x, hx => by
      rcases mem_innerFold_cases (L := bs) hx with h | ⟨b', hb', hrest⟩
      · rcases mem_inferStep_cases h with h' | h'
        · exact Or.inl h'
        · exact Or.inr ⟨b, List.mem_cons_self b bs, h'⟩
      · exact Or.inr ⟨b', List.mem_cons_of_mem _ hb', hrest⟩

theorem mem_newInferred_cases {K : List Sentence} {x : Sentence} (hx : x ∈ newInferred K) :
    ∃ a ∈ K, ∃ b ∈ K, a.cells.Nonempty ∧ a.cells ⊂ b.cells ∧
      x = ⟨b.cells \ a.cells, b.count - a.count⟩ ∧ x ∉ K := by
  unfold newInferred at hx
  suffices h : ∀ (L acc : List Sentence),
      x ∈ L.foldl (fun acc a => K.foldl (fun acc2 b => inferStep K acc2 a b) acc) acc →
      x ∈ acc ∨ ∃ a ∈ L, ∃ b ∈ K, a.cells.Nonempty ∧ a.cells ⊂ b.cells ∧
        x = ⟨b.cells \ a.cells, b.count - a.count⟩ ∧ x ∉ K by
    rcases h K [] hx with h' | ⟨a, ha, rest⟩
    · exact absurd h' (List.not_mem_nil x)
    · exact ⟨a, ha, rest⟩
  intro L
  induction L with
  | nil => exact fun acc hx' => Or.inl hx'
  | cons a as ih =>
      intro acc hx'
      rcases ih _ hx' with h' | ⟨a', ha', rest⟩
      · rcases mem_innerFold_cases h' with h'' | ⟨b, hb, hrest⟩
        · exact Or.inl h''
        · exact Or.inr ⟨a, List.mem_cons_self a as, b, hb, hrest⟩
      · exact Or.inr ⟨a', List.mem_cons_of_mem _ ha', rest⟩

theorem inferStep_hit {K acc : List Sentence} {a b : Sentence}
    (h1 : a.cells.Nonempty) (h2 : a.cells ⊂ b.cells)
    (h3 : (⟨b.cells \ a.cells, b.count - a.count⟩ : Sentence) ∉ K) :
    (⟨b.cells \ a.cells, b.count - a.count⟩ : Sentence) ∈ inferStep K acc a b := by
  unfold inferStep
  dsimp only
  rw [if_pos ⟨h1, h1.mono h2.subset, h2⟩]
  have hdiff : (b.cells \ a.cells).Nonempty :=
    Finset.sdiff_nonempty.mpr h2.not_subset
  rw [if_pos hdiff]
  by_cases hacc : (⟨b.cells \ a.cells, b.count - a.count⟩ : Sentence) ∈ acc
  · rw [if_neg (by simp [hacc])]
    exact hacc
  · rw [if_pos ⟨h3, hacc⟩]
    exact List.mem_append_right _ (List.mem_singleton_self _)

theorem innerFold_hit {K : List Sentence} {a b : Sentence}
    (h1 : a.cells.Nonempty) (h2 : a.cells ⊂ b.cells)
    (h3 : (⟨b.cells \ a.cells, b.count - a.count⟩ : Sentence) ∉ K) :
    ∀ {L acc : List Sentence}, b ∈ L →
      (⟨b.cells \ a.cells, b.count - a.count⟩ : Sentence) ∈
        L.foldl (fun acc2 b' => inferStep K acc2 a b') acc
  | [], _, hb => absurd hb (List.not_mem_nil b)
  | c :: cs, acc, hb => by
      rw [List.foldl_cons]
      rcases List.mem_cons.mp hb with rfl | hb'
      · exact innerFold_mono (L := cs) (inferStep_hit h1 h2 h3)
      · exact innerFold_hit h1 h2 h3 (L := cs) hb'

theorem newInferred_hit {K : List Sentence} {a b : Sentence}
    (ha : a ∈ K) (hb : b ∈ K)
    (h1 : a.cells.Nonempty) (h2 : a.cells ⊂ b.cells)
    (h3 : (⟨b.cells \ a.cells, b.count - a.count⟩ : Sentence) ∉ K) :
    (⟨b.cells \ a.cells, b.count - a.count⟩ : Sentence) ∈ newInferred K := by
  unfold newInferred
  suffices h : ∀ (L acc : List Sentence), a ∈ L →
      (⟨b.cells \ a.cells, b.count - a.count⟩ : Sentence) ∈
        L.foldl (fun acc a' => K.foldl (fun acc2 b' => inferStep K acc2 a' b') acc) acc from
    h K [] ha
  intro L
  induction L with
  | nil => exact fun acc hmem => absurd hmem (List.not_mem_nil a)
  | cons a' as ih =>
      intro acc hmem
      rw [List.foldl_cons]
      rcases List.mem_cons.mp hmem with rfl | hmem'
      · exact outerFold_mono (L := as) (innerFold_hit h1 h2 h3 (L := K) hb)
      · exact ih _ hmem'

end InferLemmas

/-- C1: for every ordered pair of distinct stored constraints (A, B) with
A's cell set a nonempty strict subset of B's cell set, the subset-inference
pass of the fixpoint loop derives the sentence with cells `B.cells \ A.cells`
and count `B.count - A.count` and adds it to the knowledge list unless an
equal sentence is already present; concretely, from `A = {p,q} = 1` and
`B = {p,q,r} = 2` one loop pass puts `{r} = 1` in the knowledge list and the
full loop marks `r` as a mine. -/
theorem subset_inference_spec :
    (∀ (K : List Sentence) (a b : Sentence), a ∈ K → b ∈ K →
      a.cells.Nonempty → a.cells ⊂ b.cells →
      (⟨b.cells \ a.cells, b.count - a.count⟩ : Sentence) ∈ K ++ newInferred K) ∧
    ((⟨{((1:ℤ),(0:ℤ))}, 1⟩ : Sentence) ∈
        (loopBody ⟨2, 2, ∅, ∅, ∅,
          [⟨{((0:ℤ),(0:ℤ)), ((0:ℤ),(1:ℤ))}, 1⟩,
            ⟨{((0:ℤ),(0:ℤ)), ((0:ℤ),(1:ℤ)), ((1:ℤ),(0:ℤ))}, 2⟩]⟩).knowledge ∧
      ((1:ℤ),(0:ℤ)) ∈ (loopFuel (fuelBound 2 2) ⟨2, 2, ∅, ∅, ∅,
          [⟨{((0:ℤ),(0:ℤ)), ((0:ℤ),(1:ℤ))}, 1⟩,
            ⟨{((0:ℤ),(0:ℤ)), ((0:ℤ),(1:ℤ)), ((1:ℤ),(0:ℤ))}, 2⟩]⟩).mines) := by
  refine ⟨fun K a b ha hb h1 h2 => ?_, by decide, by decide⟩
  by_cases h3 : (⟨b.cells \ a.cells, b.count - a.count⟩ : Sentence) ∈ K
  · exact List.mem_append_left _ h3
  · exact List.mem_append_right _ (newInferred_hit ha hb h1 h2 h3)

/-- C1 witness: the universal part applied to the two-constraint knowledge
list of the concrete scenario. -/
theorem subset_inference_spec_witness :
    (⟨{((1:ℤ),(0:ℤ))}, 1⟩ : Sentence) ∈
      ([⟨{((0:ℤ),(0:ℤ)), ((0:ℤ),(1:ℤ))}, 1⟩,
        ⟨{((0:ℤ),(0:ℤ)), ((0:ℤ),(1:ℤ)), ((1:ℤ),(0:ℤ))}, 2⟩] : List Sentence) ++
        newInferred [⟨{((0:ℤ),(0:ℤ)), ((0:ℤ),(1:ℤ))}, 1⟩,
          ⟨{((0:ℤ),(0:ℤ)), ((0:ℤ),(1:ℤ)), ((1:ℤ),(0:ℤ))}, 2⟩] := by
  have h := subset_inference_spec.1
    [⟨{((0:ℤ),(0:ℤ)), ((0:ℤ),(1:ℤ))}, 1⟩,
      ⟨{((0:ℤ),(0:ℤ)), ((0:ℤ),(1:ℤ)), ((1:ℤ),(0:ℤ))}, 2⟩]
    ⟨{((0:ℤ),(0:ℤ)), ((0:ℤ),(1:ℤ))}, 1⟩
    ⟨{((0:ℤ),(0:ℤ)), ((0:ℤ),(1:ℤ)), ((1:ℤ),(0:ℤ))}, 2⟩
    (by decide) (by decide) (by decide) (by decide)
  have e : (⟨(⟨{((0:ℤ),(0:ℤ)), ((0:ℤ),(1:ℤ)), ((1:ℤ),(0:ℤ))}, 2⟩ : Sentence).cells \
      (⟨{((0:ℤ),(0:ℤ)), ((0:ℤ),(1:ℤ))}, 1⟩ : Sentence).cells,
      (⟨{((0:ℤ),(0:ℤ)), ((0:ℤ),(1:ℤ)), ((1:ℤ),(0:ℤ))}, 2⟩ : Sentence).count -
      (⟨{((0:ℤ),(0:ℤ)), ((0:ℤ),(1:ℤ))}, 1⟩ : Sentence).count⟩ : Sentence) =
      ⟨{((1:ℤ),(0:ℤ))}, 1⟩ := by decide
  exact e ▸ h

section StateLemmas

theorem markAllSafe_height : ∀ (l : List Cell) (st : AIState),
    (markAllSafe st l).height = st.height
  | [], _ => rfl
  | _ :: cs, _ => markAllSafe_height cs _

theorem markAllSafe_width : ∀ (l : List Cell) (st : AIState),
    (markAllSafe st l).width = st.width
  | [], _ => rfl
  | _ :: cs, _ => markAllSafe_width cs _

theorem markAllMine_height : ∀ (l : List Cell) (st : AIState),
    (markAllMine st l).height = st.height
  | [], _ => rfl
  | _ :: cs, _ => markAllMine_height cs _

theorem markAllMine_width : ∀ (l : List Cell) (st : AIState),
    (markAllMine st l).width = st.width
  | [], _ => rfl
  | _ :: cs, _ => markAllMine_width cs _

theorem loopBody_height (st : AIState) : (loopBody st).height = st.height := by
  unfold loopBody markPhase
  rw [markAllMine_height, markAllSafe_height]

theorem loopBody_width (st : AIState) : (loopBody st).width = st.width := by
  unfold loopBody markPhase
  rw [markAllMine_width, markAllSafe_width]

theorem loopFuel_height : ∀ (n : ℕ) (st : AIState), (loopFuel n st).height = st.height
  | 0, _ => rfl
  | n + 1, st => by
      unfold loopFuel
      dsimp only
      split_ifs
      · rw [loopFuel_height n, loopBody_height]
      · exact loopBody_height st

theorem loopFuel_width : ∀ (n : ℕ) (st : AIState), (loopFuel n st).width = st.width
  | 0, _ => rfl
  | n + 1, st => by
      unfold loopFuel
      dsimp only
      split_ifs
      · rw [loopFuel_width n, loopBody_width]
      · exact loopBody_width st

theorem ingest_height (st : AIState) (cell : Cell) (count : ℤ) :
    (ingest st cell count).height = st.height := by
  unfold ingest
  dsimp only
  split_ifs <;> rfl

theorem ingest_width (st : AIState) (cell : Cell) (count : ℤ) :
    (ingest st cell count).width = st.width := by
  unfold ingest
  dsimp only
  split_ifs <;> rfl

theorem markAllSafe_safes : ∀ (l : List Cell) (st : AIState),
    (markAllSafe st l).safes = st.safes ∪ l.toFinset
  | [], st => by simp [markAllSafe]
  | c :: cs, st => by
      have h := markAllSafe_safes cs (st.mark_safe c)
      unfold markAllSafe at h ⊢
      rw [List.foldl_cons, h]
      show insert c st.safes ∪ cs.toFinset = st.safes ∪ (c :: cs).toFinset
      rw [List.toFinset_cons, Finset.insert_union, Finset.union_insert]

theorem markAllSafe_mines : ∀ (l : List Cell) (st : AIState),
    (markAllSafe st l).mines = st.mines
  | [], _ => rfl
  | _ :: cs, _ => markAllSafe_mines cs _

theorem markAllMine_mines : ∀ (l : List Cell) (st : AIState),
    (markAllMine st l).mines = st.mines ∪ l.toFinset
  | [], st => by simp [markAllMine]
  | c :: cs, st => by
      have h := markAllMine_mines cs (st.mark_mine c)
      unfold markAllMine at h ⊢
      rw [List.foldl_cons, h]
      show insert c st.mines ∪ cs.toFinset = st.mines ∪ (c :: cs).toFinset
      rw [List.toFinset_cons, Finset.insert_union, Finset.union_insert]

theorem markAllMine_safes : ∀ (l : List Cell) (st : AIState),
    (markAllMine st l).safes = st.safes
  | [], _ => rfl
  | _ :: cs, _ => markAllMine_safes cs _

theorem sortedCells_toFinset (s : Finset Cell) : (sortedCells s).toFinset = s := by
  ext x
  rw [List.mem_toFinset]
  exact mem_sortedCells

theorem loopBody_safes (st : AIState) :
    (loopBody st).safes = st.safes ∪ toMarkSafe st.knowledge := by
  unfold loopBody markPhase
  rw [markAllMine_safes, markAllSafe_safes, sortedCells_toFinset]

theorem loopBody_mines (st : AIState) :
    (loopBody st).mines = st.mines ∪ toMarkMine st.knowledge := by
  unfold loopBody markPhase
  rw [markAllMine_mines, markAllSafe_mines, sortedCells_toFinset]

end StateLemmas

section InvLemmas

theorem mark_safe_cells_eq (s : Sentence) (c : Cell) :
    (s.mark_safe c).cells = s.cells.erase c := by
  unfold Sentence.mark_safe
  split_ifs with h
  · rfl
  · exact (Finset.erase_eq_of_not_mem h).symm

theorem mark_mine_cells_eq (s : Sentence) (c : Cell) :
    (s.mark_mine c).cells = s.cells.erase c := by
  unfold Sentence.mark_mine
  split_ifs with h
  · rfl
  · exact (Finset.erase_eq_of_not_mem h).symm

theorem STrue_mark_safe {M : Finset Cell} {s : Sentence} {c : Cell}
    (hc : c ∉ M) (h : STrue M s) : STrue M (s.mark_safe c) := by
  unfold Sentence.mark_safe
  split_ifs with hin
  · unfold STrue at h ⊢
    dsimp only at h ⊢
    rw [Finset.erase_inter, Finset.erase_eq_of_not_mem (fun hmem =>
      hc (Finset.mem_inter.mp hmem).2)]
    exact h
  · exact h

theorem STrue_mark_mine {M : Finset Cell} {s : Sentence} {c : Cell}
    (hc : c ∈ M) (h : STrue M s) : STrue M (s.mark_mine c) := by
  unfold Sentence.mark_mine
  split_ifs with hin
  · unfold STrue at h ⊢
    dsimp only at h ⊢
    have hmem : c ∈ s.cells ∩ M := Finset.mem_inter.mpr ⟨hin, hc⟩
    have h1 : 1 ≤ (s.cells ∩ M).card := Finset.card_pos.mpr ⟨c, hmem⟩
    rw [Finset.erase_inter, Finset.card_erase_of_mem hmem, Nat.cast_sub h1, h]
    norm_num
  · exact h

theorem Inv_mark_safe {M : Finset Cell} {st : AIState} {c : Cell}
    (h : Inv M st) (hc : c ∉ M) : Inv M (st.mark_safe c) := by
  obtain ⟨h1, h2, h3, h4, h5⟩ := h
  refine ⟨h1, ?_, ?_, ?_, ?_⟩
  · intro x hx
    rcases Finset.mem_insert.mp hx with rfl | hx'
    · exact hc
    · exact h2 x hx'
  · intro s' hs'
    obtain ⟨s, hs, rfl⟩ := List.mem_map.mp hs'
    exact STrue_mark_safe hc (h3 s hs)
  · intro s' hs' x hx
    obtain ⟨s, hs, rfl⟩ := List.mem_map.mp hs'
    rw [mark_safe_cells_eq] at hx
    obtain ⟨hxc, hxs⟩ := Finset.mem_erase.mp hx
    refine ⟨?_, (h4 s hs x hxs).2⟩
    intro hmem
    rcases Finset.mem_insert.mp hmem with h' | h'
    · exact hxc h'
    · exact (h4 s hs x hxs).1 h'
  · intro s' hs' x hx
    obtain ⟨s, hs, rfl⟩ := List.mem_map.mp hs'
    rw [mark_safe_cells_eq] at hx
    exact h5 s hs x (Finset.mem_of_mem_erase hx)

theorem Inv_mark_mine {M : Finset Cell} {st : AIState} {c : Cell}
    (h : Inv M st) (hc : c ∈ M) : Inv M (st.mark_mine c) := by
  obtain ⟨h1, h2, h3, h4, h5⟩ := h
  refine ⟨?_, h2, ?_, ?_, ?_⟩
  · intro x hx
    rcases Finset.mem_insert.mp hx with rfl | hx'
    · exact hc
    · exact h1 hx'
  · intro s' hs'
    obtain ⟨s, hs, rfl⟩ := List.mem_map.mp hs'
    exact STrue_mark_mine hc (h3 s hs)
  · intro s' hs' x hx
    obtain ⟨s, hs, rfl⟩ := List.mem_map.mp hs'
    rw [mark_mine_cells_eq] at hx
    obtain ⟨hxc, hxs⟩ := Finset.mem_erase.mp hx
    refine ⟨(h4 s hs x hxs).1, ?_⟩
    intro hmem
    rcases Finset.mem_insert.mp hmem with h' | h'
    · exact hxc h'
    · exact (h4 s hs x hxs).2 h'
  · intro s' hs' x hx
    obtain ⟨s, hs, rfl⟩ := List.mem_map.mp hs'
    rw [mark_mine_cells_eq] at hx
    exact h5 s hs x (Finset.mem_of_mem_erase hx)

theorem Inv_markAllSafe {M : Finset Cell} :
    ∀ {l : List Cell} {st : AIState}, (∀ c ∈ l, c ∉ M) → Inv M st →
      Inv M (markAllSafe st l)
  | [], _, _, h => h
  | c :: cs, _, hl, h =>
      Inv_markAllSafe (l := cs) (fun d hd => hl d (List.mem_cons_of_mem _ hd))
        (Inv_mark_safe h (hl c (List.mem_cons_self c cs)))

theorem Inv_markAllMine {M : Finset Cell} :
    ∀ {l : List Cell} {st : AIState}, (∀ c ∈ l, c ∈ M) → Inv M st →
      Inv M (markAllMine st l)
  | [], _, _, h => h
  | c :: cs, _, hl, h =>
      Inv_markAllMine (l := cs) (fun d hd => hl d (List.mem_cons_of_mem _ hd))
        (Inv_mark_mine h (hl c (List.mem_cons_self c cs)))

theorem mem_foldl_union {f : Sentence → Finset Cell} :
    ∀ {K : List Sentence} {A : Finset Cell} {x : Cell},
      x ∈ K.foldl (fun acc s => acc ∪ f s) A ↔ x ∈ A ∨ ∃ s ∈ K, x ∈ f s
  | [], A, x => by simp
  | s :: ss, A, x => by
      rw [List.foldl_cons, mem_foldl_union (K := ss)]
      simp only [Finset.mem_union, List.mem_cons]
      constructor
      · rintro (⟨h | h⟩ | ⟨t, ht, hx⟩)
        · exact Or.inl h
        · exact Or.inr ⟨s, Or.inl rfl, h⟩
        · exact Or.inr ⟨t, Or.inr ht, hx⟩
      · rintro (h | ⟨t, rfl | ht, hx⟩)
        · exact Or.inl (Or.inl h)
        · exact Or.inl (Or.inr hx)
        · exact Or.inr ⟨t, ht, hx⟩

theorem mem_toMarkSafe {K : List Sentence} {x : Cell} :
    x ∈ toMarkSafe K ↔ ∃ s ∈ K, s.count = 0 ∧ x ∈ s.cells := by
  unfold toMarkSafe
  rw [mem_foldl_union]
  simp only [Finset.not_mem_empty, false_or]
  constructor
  · rintro ⟨s, hs, hx⟩
    unfold Sentence.known_safes at hx
    split_ifs at hx with h
    · exact ⟨s, hs, h, hx⟩
    · exact absurd hx (Finset.not_mem_empty x)
  · rintro ⟨s, hs, h0, hx⟩
    refine ⟨s, hs, ?_⟩
    unfold Sentence.known_safes
    rw [if_pos h0]
    exact hx

theorem mem_toMarkMine {K : List Sentence} {x : Cell} :
    x ∈ toMarkMine K ↔ ∃ s ∈ K, (s.cells.card : ℤ) = s.count ∧ x ∈ s.cells := by
  unfold toMarkMine
  rw [mem_foldl_union]
  simp only [Finset.not_mem_empty, false_or]
  constructor
  · rintro ⟨s, hs, hx⟩
    unfold Sentence.known_mines at hx
    split_ifs at hx with h
    · exact ⟨s, hs, h, hx⟩
    · exact absurd hx (Finset.not_mem_empty x)
  · rintro ⟨s, hs, h0, hx⟩
    refine ⟨s, hs, ?_⟩
    unfold Sentence.known_mines
    rw [if_pos h0]
    exact hx

theorem toMarkSafe_not_mine {M : Finset Cell} {K : List Sentence} {x : Cell}
    (ht : ∀ s ∈ K, STrue M s) (hx : x ∈ toMarkSafe K) : x ∉ M := by
  obtain ⟨s, hs, h0, hxc⟩ := mem_toMarkSafe.mp hx
  have htr := ht s hs
  unfold STrue at htr
  rw [h0] at htr
  have hcard : (s.cells ∩ M).card = 0 := Nat.cast_injective htr
  have hempty : s.cells ∩ M = ∅ := Finset.card_eq_zero.mp hcard
  intro hxM
  have : x ∈ s.cells ∩ M := Finset.mem_inter.mpr ⟨hxc, hxM⟩
  rw [hempty] at this
  exact absurd this (Finset.not_mem_empty x)

theorem toMarkMine_mem_mine {M : Finset Cell} {K : List Sentence} {x : Cell}
    (ht : ∀ s ∈ K, STrue M s) (hx : x ∈ toMarkMine K) : x ∈ M := by
  obtain ⟨s, hs, hcnt, hxc⟩ := mem_toMarkMine.mp hx
  have htr := ht s hs
  unfold STrue at htr
  have hcard : (s.cells ∩ M).card = s.cells.card :=
    Nat.cast_injective (htr.trans hcnt.symm)
  have hsub : s.cells ⊆ M := by
    have heq : s.cells ∩ M = s.cells :=
      Finset.eq_of_subset_of_card_le Finset.inter_subset_left (le_of_eq hcard.symm)
    intro y hy
    rw [← heq] at hy
    exact (Finset.mem_inter.mp hy).2
  exact hsub hxc

theorem STrue_inferred {M : Finset Cell} {a b : Sentence}
    (ha : STrue M a) (hb : STrue M b) (hsub : a.cells ⊂ b.cells) :
    STrue M (⟨b.cells \ a.cells, b.count - a.count⟩ : Sentence) := by
  unfold STrue at ha hb ⊢
  dsimp only
  have hinter : (b.cells \ a.cells) ∩ M = (b.cells ∩ M) \ (a.cells ∩ M) := by
    ext x
    simp only [Finset.mem_inter, Finset.mem_sdiff]
    tauto
  have hsub' : a.cells ∩ M ⊆ b.cells ∩ M :=
    Finset.inter_subset_inter_right hsub.subset
  rw [hinter, Finset.card_sdiff hsub', Nat.cast_sub (Finset.card_le_card hsub'), ha, hb]

theorem STrue_newInferred {M : Finset Cell} {K : List Sentence}
    (ht : ∀ s ∈ K, STrue M s) : ∀ x ∈ newInferred K, STrue M x := by
  intro x hx
  obtain ⟨a, ha, b, hb, _, hsub, rfl, _⟩ := mem_newInferred_cases hx
  exact STrue_inferred (ht a ha) (ht b hb) hsub

theorem Inv_markPhase {M : Finset Cell} {st : AIState} (h : Inv M st) :
    Inv M (markPhase st) := by
  unfold markPhase
  have h3 := h.2.2.1
  refine Inv_markAllMine ?_ (Inv_markAllSafe ?_ h)
  · intro c hc
    exact toMarkMine_mem_mine h3 (mem_sortedCells.mp hc)
  · intro c hc
    exact toMarkSafe_not_mine h3 (mem_sortedCells.mp hc)

theorem Inv_loopBody {M : Finset Cell} {st : AIState} (h : Inv M st) :
    Inv M (loopBody st) := by
  unfold loopBody
  dsimp only
  have h2 := Inv_markPhase h
  obtain ⟨i1, i2, i3, i4, i5⟩ := h2
  refine ⟨i1, i2, ?_, ?_, ?_⟩
  · intro s hs
    rcases List.mem_append.mp hs with h' | h'
    · exact i3 s h'
    · exact STrue_newInferred i3 s h'
  · intro s hs x hx
    rcases List.mem_append.mp hs with h' | h'
    · exact i4 s h' x hx
    · obtain ⟨a, _, b, hb, _, _, rfl, _⟩ := mem_newInferred_cases h'
      exact i4 b hb x (Finset.mem_sdiff.mp hx).1
  · intro s hs x hx
    rcases List.mem_append.mp hs with h' | h'
    · exact i5 s h' x hx
    · obtain ⟨a, _, b, hb, _, _, rfl, _⟩ := mem_newInferred_cases h'
      exact i5 b hb x (Finset.mem_sdiff.mp hx).1

theorem Inv_loopFuel {M : Finset Cell} :
    ∀ {n : ℕ} {st : AIState}, Inv M st → Inv M (loopFuel n st)
  | 0, _, h => h
  | n + 1, st, h => by
      unfold loopFuel
      dsimp only
      split_ifs
      · exact Inv_loopFuel (n := n) (Inv_loopBody h)
      · exact Inv_loopBody h

theorem Inv_iterate {M : Finset Cell} :
    ∀ (n : ℕ) {st : AIState}, Inv M st → Inv M (loopBody^[n] st)
  | 0, _, h => h
  | n + 1, st, h => by
      rw [Function.iterate_succ_apply]
      exact Inv_iterate n (Inv_loopBody h)

end InvLemmas

section IngestLemmas

theorem mem_neighbors_bounds {height width : ℕ} {cell x : Cell}
    (hx : x ∈ neighbors height width cell) :
    0 ≤ x.1 ∧ x.1 < (height : ℤ) ∧ 0 ≤ x.2 ∧ x.2 < (width : ℤ) :=
  ((Finset.mem_filter.mp hx).2).2

theorem Inv_append_sentence {M : Finset Cell} {st : AIState} (h : Inv M st) {s : Sentence}
    (ht : STrue M s)
    (hp : ∀ x ∈ s.cells, x ∉ st.safes ∧ x ∉ st.mines)
    (hg : ∀ x ∈ s.cells, 0 ≤ x.1 ∧ x.1 < (st.height : ℤ) ∧ 0 ≤ x.2 ∧ x.2 < (st.width : ℤ)) :
    Inv M { st with knowledge := st.knowledge ++ [s] } := by
  obtain ⟨h1, h2, h3, h4, h5⟩ := h
  refine ⟨h1, h2, ?_, ?_, ?_⟩
  · intro t hts
    rcases List.mem_append.mp hts with h' | h'
    · exact h3 t h'
    · rw [List.mem_singleton.mp h']
      exact ht
  · intro t hts x hx
    rcases List.mem_append.mp hts with h' | h'
    · exact h4 t h' x hx
    · rw [List.mem_singleton.mp h'] at hx
      exact hp x hx
  · intro t hts x hx
    rcases List.mem_append.mp hts with h' | h'
    · exact h5 t h' x hx
    · rw [List.mem_singleton.mp h'] at hx
      exact hg x hx

theorem Inv_ingest {M : Finset Cell} {st : AIState} {cell : Cell} {count : ℤ}
    (h : Inv M st) (hc : cell ∉ M)
    (hcount : count = ((neighbors st.height st.width cell ∩ M).card : ℤ)) :
    Inv M (ingest st cell count) := by
  have h1 : Inv M ({ st with moves_made := insert cell st.moves_made } : AIState) := h
  have h2 : Inv M (({ st with moves_made := insert cell st.moves_made } : AIState).mark_safe cell) :=
    Inv_mark_safe h1 hc
  unfold ingest
  dsimp only
  split_ifs with hpr hmem
  · exact h2
  · refine Inv_append_sentence h2 ?_ ?_ ?_
    · unfold STrue
      dsimp only
      have hsafes : ∀ c' ∈ (({ st with moves_made := insert cell st.moves_made } : AIState).mark_safe cell).safes,
          c' ∉ M := h2.2.1
      have hmines : st.mines ⊆ M := h.1
      have e1 : (neighbors st.height st.width cell).filter
            (fun n => n ∉ (({ st with moves_made := insert cell st.moves_made } : AIState).mark_safe cell).safes ∧
              n ∉ (({ st with moves_made := insert cell st.moves_made } : AIState).mark_safe cell).mines) ∩ M =
          (neighbors st.height st.width cell ∩ M) \ ((neighbors st.height st.width cell).filter
              (fun n => n ∉ (({ st with moves_made := insert cell st.moves_made } : AIState).mark_safe cell).safes ∧
                n ∈ (({ st with moves_made := insert cell st.moves_made } : AIState).mark_safe cell).mines)) := by
        ext x
        simp only [Finset.mem_inter, Finset.mem_sdiff, Finset.mem_filter]
        constructor
        · rintro ⟨⟨hn, hns, hnm⟩, hM⟩
          exact ⟨⟨hn, hM⟩, fun ⟨_, _, hm⟩ => hnm hm⟩
        · rintro ⟨⟨hn, hM⟩, hnot⟩
          have hns : x ∉ (({ st with moves_made := insert cell st.moves_made } : AIState).mark_safe cell).safes :=
            fun hs => hsafes x hs hM
          exact ⟨⟨hn, hns, fun hm => hnot ⟨hn, hns, hm⟩⟩, hM⟩
      have hsubf : (neighbors st.height st.width cell).filter
            (fun n => n ∉ (({ st with moves_made := insert cell st.moves_made } : AIState).mark_safe cell).safes ∧
              n ∈ (({ st with moves_made := insert cell st.moves_made } : AIState).mark_safe cell).mines) ⊆
          neighbors st.height st.width cell ∩ M := by
        intro x hx
        obtain ⟨hn, _, hm⟩ := Finset.mem_filter.mp hx
        exact Finset.mem_inter.mpr ⟨hn, hmines hm⟩
      rw [e1, Finset.card_sdiff hsubf, Nat.cast_sub (Finset.card_le_card hsubf), hcount]
    · intro x hx
      obtain ⟨_, hns, hnm⟩ := Finset.mem_filter.mp hx
      exact ⟨hns, hnm⟩
    · intro x hx
      obtain ⟨hn, _⟩ := Finset.mem_filter.mp hx
      exact mem_neighbors_bounds hn
  · exact h2

theorem Inv_add_knowledge {M : Finset Cell} {st : AIState} {cell : Cell} {count : ℤ}
    (h : Inv M st) (hc : cell ∉ M)
    (hcount : count = ((neighbors st.height st.width cell ∩ M).card : ℤ)) :
    Inv M (add_knowledge st cell count) :=
  Inv_loopFuel (Inv_ingest h hc hcount)

theorem Inv_init (M : Finset Cell) (height width : ℕ) :
    Inv M (AIState.init height width) := by
  refine ⟨Finset.empty_subset M, ?_, ?_, ?_, ?_⟩
  · intro c hcm
    exact absurd hcm (Finset.not_mem_empty c)
  · intro s hs
    exact absurd hs (List.not_mem_nil s)
  · intro s hs
    exact absurd hs (List.not_mem_nil s)
  · intro s hs
    exact absurd hs (List.not_mem_nil s)

end IngestLemmas

section GridLemmas

theorem InGrid_mark_safe {st : AIState} {c : Cell} (h : InGrid st) :
    InGrid (st.mark_safe c) := by
  intro s' hs' x hx
  obtain ⟨s, hs, rfl⟩ := List.mem_map.mp hs'
  rw [mark_safe_cells_eq] at hx
  exact h s hs x (Finset.mem_of_mem_erase hx)

theorem InGrid_mark_mine {st : AIState} {c : Cell} (h : InGrid st) :
    InGrid (st.mark_mine c) := by
  intro s' hs' x hx
  obtain ⟨s, hs, rfl⟩ := List.mem_map.mp hs'
  rw [mark_mine_cells_eq] at hx
  exact h s hs x (Finset.mem_of_mem_erase hx)

theorem InGrid_markAllSafe :
    ∀ {l : List Cell} {st : AIState}, InGrid st → InGrid (markAllSafe st l)
  | [], _, h => h
  | _ :: cs, _, h => InGrid_markAllSafe (l := cs) (InGrid_mark_safe h)

theorem InGrid_markAllMine :
    ∀ {l : List Cell} {st : AIState}, InGrid st → InGrid (markAllMine st l)
  | [], _, h => h
  | _ :: cs, _, h => InGrid_markAllMine (l := cs) (InGrid_mark_mine h)

theorem InGrid_markPhase {st : AIState} (h : InGrid st) : InGrid (markPhase st) :=
  InGrid_markAllMine (InGrid_markAllSafe h)

theorem InGrid_loopBody {st : AIState} (h : InGrid st) : InGrid (loopBody st) := by
  unfold loopBody
  dsimp only
  have h2 := InGrid_markPhase h
  intro s hs x hx
  rcases List.mem_append.mp hs with h' | h'
  · exact h2 s h' x hx
  · obtain ⟨a, _, b, hb, _, _, rfl, _⟩ := mem_newInferred_cases h'
    exact h2 b hb x (Finset.mem_sdiff.mp hx).1

theorem InGrid_loopFuel :
    ∀ {n : ℕ} {st : AIState}, InGrid st → InGrid (loopFuel n st)
  | 0, _, h => h
  | n + 1, st, h => by
      unfold loopFuel
      dsimp only
      split_ifs
      · exact InGrid_loopFuel (n := n) (InGrid_loopBody h)
      · exact InGrid_loopBody h

theorem InGrid_ingest {st : AIState} {cell : Cell} {count : ℤ} (h : InGrid st) :
    InGrid (ingest st cell count) := by
  have h1 : InGrid ({ st with moves_made := insert cell st.moves_made } : AIState) := h
  have h2 : InGrid (({ st with moves_made := insert cell st.moves_made } : AIState).mark_safe cell) :=
    InGrid_mark_safe h1
  unfold ingest
  dsimp only
  split_ifs with hpr hmem
  · exact h2
  · intro s hs x hx
    rcases List.mem_append.mp hs with h' | h'
    · exact h2 s h' x hx
    · rw [List.mem_singleton.mp h'] at hx
      obtain ⟨hn, _⟩ := Finset.mem_filter.mp hx
      exact mem_neighbors_bounds hn
  · exact h2

theorem InGrid_add_knowledge {st : AIState} {cell : Cell} {count : ℤ} (h : InGrid st) :
    InGrid (add_knowledge st cell count) :=
  InGrid_loopFuel (InGrid_ingest h)

end GridLemmas

/-- C10: every cell in any stored constraint lies within the grid bounds:
the invariant holds initially and is preserved by the marking procedures and
by `add_knowledge` (whose new sentences are built from bounds-clipped
neighbor sets and set differences of existing cell sets). -/
theorem constraint_cells_in_grid :
    (∀ height width : ℕ, InGrid (AIState.init height width)) ∧
    (∀ (st : AIState) (c : Cell), InGrid st → InGrid (st.mark_safe c)) ∧
    (∀ (st : AIState) (c : Cell), InGrid st → InGrid (st.mark_mine c)) ∧
    (∀ (st : AIState) (cell : Cell) (count : ℤ), InGrid st →
      InGrid (add_knowledge st cell count)) := by
  refine ⟨fun _ _ s hs => absurd hs (List.not_mem_nil s),
    fun _ _ h => InGrid_mark_safe h,
    fun _ _ h => InGrid_mark_mine h,
    fun _ _ _ h => InGrid_add_knowledge h⟩

/-- C10 witness: in-grid preservation through a concrete `add_knowledge` call
on a 2×2 grid with one stored constraint. -/
theorem constraint_cells_in_grid_witness :
    InGrid (add_knowledge ⟨2, 2, ∅, ∅, ∅, [⟨{((0:ℤ),(1:ℤ))}, 1⟩]⟩ ((0:ℤ),(0:ℤ)) 1) :=
  constraint_cells_in_grid.2.2.2 ⟨2, 2, ∅, ∅, ∅, [⟨{((0:ℤ),(1:ℤ))}, 1⟩]⟩ ((0:ℤ),(0:ℤ)) 1
    (by decide)

/-- C5: under sound inputs the knowledge base always satisfies: known safes
and known mines are disjoint, and no known cell appears in any stored
constraint's cell set.  The soundness invariant `Inv` holds of the initial
state, is preserved by the marking procedures on truly-safe/truly-mine cells
and by `add_knowledge` on sound inputs, and implies both properties. -/
theorem knowledge_base_invariants :
    (∀ (M : Finset Cell) (height width : ℕ), Inv M (AIState.init height width)) ∧
    (∀ (M : Finset Cell) (st : AIState) (c : Cell), Inv M st → c ∉ M →
      Inv M (st.mark_safe c)) ∧
    (∀ (M : Finset Cell) (st : AIState) (c : Cell), Inv M st → c ∈ M →
      Inv M (st.mark_mine c)) ∧
    (∀ (M : Finset Cell) (st : AIState) (cell : Cell) (count : ℤ), Inv M st →
      cell ∉ M → count = ((neighbors st.height st.width cell ∩ M).card : ℤ) →
      Inv M (add_knowledge st cell count)) ∧
    (∀ (M : Finset Cell) (st : AIState), Inv M st →
      Disjoint st.safes st.mines ∧
        ∀ s ∈ st.knowledge, ∀ c ∈ s.cells, c ∉ st.safes ∧ c ∉ st.mines) := by
  refine ⟨Inv_init, fun _ _ _ h hc => Inv_mark_safe h hc,
    fun _ _ _ h hc => Inv_mark_mine h hc,
    fun _ _ _ _ h hc hcount => Inv_add_knowledge h hc hcount,
    fun M st h => ⟨?_, h.2.2.2.1⟩⟩
  rw [Finset.disjoint_left]
  intro x hxs hxm
  exact h.2.1 x hxs (h.1 hxm)

/-- C5 witness: the invariant consequences at a concrete sound state. -/
theorem knowledge_base_invariants_witness :
    Disjoint ({((0:ℤ),(0:ℤ))} : Finset Cell) ({((1:ℤ),(1:ℤ))} : Finset Cell) ∧
      ∀ s ∈ [(⟨{((0:ℤ),(1:ℤ))}, 1⟩ : Sentence)], ∀ c ∈ s.cells,
        c ∉ ({((0:ℤ),(0:ℤ))} : Finset Cell) ∧ c ∉ ({((1:ℤ),(1:ℤ))} : Finset Cell) :=
  knowledge_base_invariants.2.2.2.2 {((1:ℤ),(1:ℤ)), ((0:ℤ),(1:ℤ))}
    ⟨2, 2, ∅, {((1:ℤ),(1:ℤ))}, {((0:ℤ),(0:ℤ))}, [⟨{((0:ℤ),(1:ℤ))}, 1⟩]⟩ (by decide)

section TerminationLemmas

theorem card_gridFinset (height width : ℕ) :
    (gridFinset height width).card = height * width := by
  unfold gridFinset
  have hinj : Function.Injective (fun p : ℕ × ℕ => ((p.1 : ℤ), (p.2 : ℤ))) := by
    intro a b hab
    have h1 : (a.1 : ℤ) = b.1 := congrArg Prod.fst hab
    have h2 : (a.2 : ℤ) = b.2 := congrArg Prod.snd hab
    exact Prod.ext (Nat.cast_injective h1) (Nat.cast_injective h2)
  rw [Finset.card_image_of_injective _ hinj, Finset.card_product,
    Finset.card_range, Finset.card_range]

theorem markedCard_le (st : AIState) : markedCard st ≤ st.height * st.width := by
  unfold markedCard
  calc ((st.safes ∪ st.mines) ∩ gridFinset st.height st.width).card
      ≤ (gridFinset st.height st.width).card :=
        Finset.card_le_card Finset.inter_subset_right
    _ = st.height * st.width := card_gridFinset _ _

theorem sentVals_le {M : Finset Cell} {st : AIState} (h : Inv M st) :
    sentVals st ≤ 2 ^ (st.height * st.width) := by
  unfold sentVals
  have hmaps : ∀ s ∈ st.knowledge.toFinset, Sentence.cells s ∈
      (gridFinset st.height st.width).powerset := by
    intro s hs
    rw [Finset.mem_powerset]
    intro c hc
    exact mem_gridFinset.mpr (h.2.2.2.2 s (List.mem_toFinset.mp hs) c hc)
  have hinj : ∀ s ∈ st.knowledge.toFinset, ∀ t ∈ st.knowledge.toFinset,
      Sentence.cells s = Sentence.cells t → s = t := by
    intro s hs t ht hcells
    have hts := h.2.2.1 s (List.mem_toFinset.mp hs)
    have htt := h.2.2.1 t (List.mem_toFinset.mp ht)
    unfold STrue at hts htt
    rcases s with ⟨sc, sn⟩
    rcases t with ⟨tc, tn⟩
    dsimp only at hcells hts htt
    subst hcells
    have : sn = tn := by rw [← hts, ← htt]
    rw [this]
  calc st.knowledge.toFinset.card
      ≤ ((gridFinset st.height st.width).powerset).card :=
        Finset.card_le_card_of_injOn Sentence.cells hmaps hinj
    _ = 2 ^ (st.height * st.width) := by
        rw [Finset.card_powerset, card_gridFinset]

theorem sortedCells_empty : sortedCells (∅ : Finset Cell) = [] := rfl

theorem markPhase_eq_of_no_marks {st : AIState}
    (h1 : toMarkSafe st.knowledge = ∅) (h2 : toMarkMine st.knowledge = ∅) :
    markPhase st = st := by
  unfold markPhase
  rw [h1, h2, sortedCells_empty]
  rfl

theorem loopBody_eq_of_not_changed {st : AIState} (h : ¬ loopChanged st) :
    loopBody st = st := by
  unfold loopChanged at h
  push_neg at h
  obtain ⟨h1, h2, h3⟩ := h
  have hmp : markPhase st = st := markPhase_eq_of_no_marks h1 h2
  rw [hmp] at h3
  unfold loopBody
  dsimp only
  rw [hmp, h3, List.append_nil]

theorem iterate_stable {st : AIState} (h : ¬ loopChanged st) :
    ∀ n : ℕ, loopBody^[n] st = st
  | 0 => rfl
  | n + 1 => by
      rw [Function.iterate_succ_apply, loopBody_eq_of_not_changed h,
        iterate_stable h n]

theorem loopFuel_eq_iterate : ∀ {n m : ℕ} {st : AIState},
    ¬ loopChanged (loopBody^[n] st) → n < m → loopFuel m st = loopBody^[n] st := by
  intro n
  induction n with
  | zero =>
      intro m st h hm
      rw [Function.iterate_zero_apply] at h
      obtain ⟨m', rfl⟩ : ∃ m', m = m' + 1 := ⟨m - 1, by omega⟩
      unfold loopFuel
      dsimp only
      rw [if_neg h, loopBody_eq_of_not_changed h, Function.iterate_zero_apply]
  | succ n ih =>
      intro m st h hm
      obtain ⟨m', rfl⟩ : ∃ m', m = m' + 1 := ⟨m - 1, by omega⟩
      by_cases hch : loopChanged st
      · unfold loopFuel
        dsimp only
        rw [if_pos hch, Function.iterate_succ_apply] at *
        exact ih h (by omega)
      · unfold loopFuel
        dsimp only
        rw [if_neg hch, loopBody_eq_of_not_changed hch, iterate_stable hch]

theorem markedCard_loopBody (st : AIState) : markedCard (loopBody st) =
    (((st.safes ∪ toMarkSafe st.knowledge) ∪ (st.mines ∪ toMarkMine st.knowledge)) ∩
      gridFinset st.height st.width).card := by
  unfold markedCard
  rw [loopBody_height, loopBody_width, loopBody_safes, loopBody_mines]

theorem loopMeasure_loopBody (st : AIState) : loopMeasure (loopBody st) =
    (st.height * st.width - markedCard (loopBody st)) * bigB st.height st.width +
      (bigB st.height st.width - sentVals (loopBody st)) := by
  unfold loopMeasure
  rw [loopBody_height, loopBody_width]

theorem markedCard_lt_of_marks {M : Finset Cell} {st : AIState} (hInv : Inv M st)
    (hmark : toMarkSafe st.knowledge ≠ ∅ ∨ toMarkMine st.knowledge ≠ ∅) :
    markedCard st < markedCard (loopBody st) := by
  have hc : ∃ c, (c ∈ toMarkSafe st.knowledge ∨ c ∈ toMarkMine st.knowledge) := by
    rcases hmark with h | h
    · obtain ⟨c, hc⟩ := Finset.nonempty_iff_ne_empty.mpr h
      exact ⟨c, Or.inl hc⟩
    · obtain ⟨c, hc⟩ := Finset.nonempty_iff_ne_empty.mpr h
      exact ⟨c, Or.inr hc⟩
  obtain ⟨c, hc⟩ := hc
  have hcell : ∃ s ∈ st.knowledge, c ∈ s.cells := by
    rcases hc with h | h
    · obtain ⟨s, hs, _, hcs⟩ := mem_toMarkSafe.mp h
      exact ⟨s, hs, hcs⟩
    · obtain ⟨s, hs, _, hcs⟩ := mem_toMarkMine.mp h
      exact ⟨s, hs, hcs⟩
  obtain ⟨s, hs, hcs⟩ := hcell
  have hgrid : c ∈ gridFinset st.height st.width :=
    mem_gridFinset.mpr (hInv.2.2.2.2 s hs c hcs)
  have hnew : c ∉ st.safes ∧ c ∉ st.mines := hInv.2.2.2.1 s hs c hcs
  rw [markedCard_loopBody]
  unfold markedCard
  apply Finset.card_lt_card
  constructor
  · refine Finset.inter_subset_inter ?_ (subset_refl _)
    intro x hx
    rcases Finset.mem_union.mp hx with h | h
    · exact Finset.mem_union_left _ (Finset.mem_union_left _ h)
    · exact Finset.mem_union_right _ (Finset.mem_union_left _ h)
  · intro hsub
    have hcmem : c ∈ ((st.safes ∪ toMarkSafe st.knowledge) ∪
        (st.mines ∪ toMarkMine st.knowledge)) ∩ gridFinset st.height st.width := by
      refine Finset.mem_inter.mpr ⟨?_, hgrid⟩
      rcases hc with h | h
      · exact Finset.mem_union_left _ (Finset.mem_union_right _ h)
      · exact Finset.mem_union_right _ (Finset.mem_union_right _ h)
    have := hsub hcmem
    rcases Finset.mem_union.mp (Finset.mem_inter.mp this).1 with h | h
    · exact hnew.1 h
    · exact hnew.2 h

theorem sentVals_lt_of_inferred {st : AIState}
    (h1 : toMarkSafe st.knowledge = ∅) (h2 : toMarkMine st.knowledge = ∅)
    (h3 : newInferred st.knowledge ≠ []) :
    sentVals st < sentVals (loopBody st) ∧ markedCard (loopBody st) = markedCard st ∧
      loopBody st = { st with knowledge := st.knowledge ++ newInferred st.knowledge } := by
  have hmp : markPhase st = st := markPhase_eq_of_no_marks h1 h2
  have hbody : loopBody st = { st with knowledge := st.knowledge ++ newInferred st.knowledge } := by
    unfold loopBody
    dsimp only
    rw [hmp]
  refine ⟨?_, ?_, hbody⟩
  · rw [hbody]
    unfold sentVals
    dsimp only
    obtain ⟨x, hx⟩ := List.exists_mem_of_ne_nil _ h3
    have hxK : x ∉ st.knowledge := by
      obtain ⟨_, _, _, _, _, _, _, hnot⟩ := mem_newInferred_cases hx
      exact hnot
    apply Finset.card_lt_card
    rw [List.toFinset_append]
    constructor
    · exact Finset.subset_union_left
    · intro hsub
      have : x ∈ st.knowledge.toFinset :=
        hsub (Finset.mem_union_right _ (List.mem_toFinset.mpr hx))
      exact hxK (List.mem_toFinset.mp this)
  · rw [hbody]
    unfold markedCard
    rfl

theorem loopMeasure_decrease {M : Finset Cell} {st : AIState}
    (hInv : Inv M st) (hch : loopChanged st) :
    loopMeasure (loopBody st) < loopMeasure st := by
  have hInv' : Inv M (loopBody st) := Inv_loopBody hInv
  have hD : sentVals st ≤ 2 ^ (st.height * st.width) := sentVals_le hInv
  have hD' : sentVals (loopBody st) ≤ 2 ^ (st.height * st.width) := by
    have := sentVals_le hInv'
    rwa [loopBody_height, loopBody_width] at this
  have hR'le : markedCard (loopBody st) ≤ st.height * st.width := by
    have := markedCard_le (loopBody st)
    rwa [loopBody_height, loopBody_width] at this
  rw [loopMeasure_loopBody]
  unfold loopMeasure bigB at *
  by_cases hmark : toMarkSafe st.knowledge ≠ ∅ ∨ toMarkMine st.knowledge ≠ ∅
  · have hRlt : markedCard st < markedCard (loopBody st) :=
      markedCard_lt_of_marks hInv hmark
    have e1 : st.height * st.width - markedCard (loopBody st) ≤
        st.height * st.width - markedCard st - 1 := by omega
    calc (st.height * st.width - markedCard (loopBody st)) * (2 ^ (st.height * st.width) + 1) +
          (2 ^ (st.height * st.width) + 1 - sentVals (loopBody st))
        ≤ (st.height * st.width - markedCard st - 1) * (2 ^ (st.height * st.width) + 1) +
          (2 ^ (st.height * st.width) + 1) :=
          Nat.add_le_add (Nat.mul_le_mul_right _ e1) (Nat.sub_le _ _)
      _ = (st.height * st.width - markedCard st - 1 + 1) * (2 ^ (st.height * st.width) + 1) := by
          rw [Nat.succ_mul]
      _ = (st.height * st.width - markedCard st) * (2 ^ (st.height * st.width) + 1) := by
          have : 1 ≤ st.height * st.width - markedCard st := by omega
          congr 1
          omega
      _ < (st.height * st.width - markedCard st) * (2 ^ (st.height * st.width) + 1) +
          (2 ^ (st.height * st.width) + 1 - sentVals st) := by omega
  · push_neg at hmark
    obtain ⟨h1, h2⟩ := hmark
    have hch3 : newInferred (markPhase st).knowledge ≠ [] := by
      unfold loopChanged at hch
      rcases hch with h | h | h
      · exact absurd h1 h
      · exact absurd h2 h
      · exact h
    rw [markPhase_eq_of_no_marks h1 h2] at hch3
    obtain ⟨hlt, heq, _⟩ := sentVals_lt_of_inferred h1 h2 hch3
    rw [heq]
    omega

theorem exists_fixpoint {M : Finset Cell} :
    ∀ (k : ℕ) {st : AIState}, loopMeasure st ≤ k → Inv M st →
      ∃ n, n ≤ loopMeasure st ∧ ¬ loopChanged (loopBody^[n] st)
  | 0, st, hk, hInv => by
      by_cases hch : loopChanged st
      · exact absurd (loopMeasure_decrease hInv hch) (by omega)
      · exact ⟨0, Nat.zero_le _, by rwa [Function.iterate_zero_apply]⟩
  | k + 1, st, hk, hInv => by
      by_cases hch : loopChanged st
      · have hdec := loopMeasure_decrease hInv hch
        obtain ⟨n, hn, hfix⟩ :=
          exists_fixpoint (M := M) k (by omega) (Inv_loopBody hInv)
        refine ⟨n + 1, by omega, ?_⟩
        rwa [Function.iterate_succ_apply]
      · exact ⟨0, Nat.zero_le _, by rwa [Function.iterate_zero_apply]⟩

theorem loopMeasure_lt_fuelBound (st : AIState) :
    loopMeasure st < fuelBound st.height st.width := by
  unfold loopMeasure fuelBound bigB
  have h1 : st.height * st.width - markedCard st ≤ st.height * st.width :=
    Nat.sub_le _ _
  calc (st.height * st.width - markedCard st) * (2 ^ (st.height * st.width) + 1) +
        (2 ^ (st.height * st.width) + 1 - sentVals st)
      ≤ st.height * st.width * (2 ^ (st.height * st.width) + 1) +
        (2 ^ (st.height * st.width) + 1) :=
        Nat.add_le_add (Nat.mul_le_mul_right _ h1) (Nat.sub_le _ _)
    _ = (st.height * st.width + 1) * (2 ^ (st.height * st.width) + 1) := by
        rw [Nat.succ_mul]
    _ < (st.height * st.width + 1) * (2 ^ (st.height * st.width) + 1) + 1 :=
        Nat.lt_succ_self _

end TerminationLemmas

/-- C3: under sound inputs (the knowledge base satisfies the soundness
invariant for the actual mine set, the ingested cell is genuinely safe, and
the supplied count is the true number of adjacent mines), the fixpoint loop
of `add_knowledge` terminates within the fuel budget: some pass `n` below
the fuel bound is reached at which a full pass produces zero newly marked
cells and zero newly added constraints (`loopChanged` is false), and
`add_knowledge` returns exactly the state after those `n` passes. -/
theorem add_knowledge_terminates (M : Finset Cell) (st : AIState) (cell : Cell) (count : ℤ)
    (hInv : Inv M st) (hcell : cell ∉ M)
    (hcount : count = ((neighbors st.height st.width cell ∩ M).card : ℤ)) :
    ∃ n, n < fuelBound st.height st.width ∧
      ¬ loopChanged (loopBody^[n] (ingest st cell count)) ∧
      add_knowledge st cell count = loopBody^[n] (ingest st cell count) := by
  have hInv' : Inv M (ingest st cell count) := Inv_ingest hInv hcell hcount
  obtain ⟨n, hn, hfix⟩ :=
    exists_fixpoint (M := M) (loopMeasure (ingest st cell count)) le_rfl hInv'
  have hlt := loopMeasure_lt_fuelBound (ingest st cell count)
  rw [ingest_height, ingest_width] at hlt
  refine ⟨n, by omega, hfix, ?_⟩
  unfold add_knowledge
  exact loopFuel_eq_iterate hfix (by omega)

/-- C3 witness: termination on a concrete sound call (1×1 grid, revealing
the single cell with its true count 0). -/
theorem add_knowledge_terminates_witness :
    ∃ n, n < fuelBound 1 1 ∧
      ¬ loopChanged (loopBody^[n] (ingest (AIState.init 1 1) ((0:ℤ),(0:ℤ)) 0)) ∧
      add_knowledge (AIState.init 1 1) ((0:ℤ),(0:ℤ)) 0 =
        loopBody^[n] (ingest (AIState.init 1 1) ((0:ℤ),(0:ℤ)) 0) :=
  add_knowledge_terminates ∅ (AIState.init 1 1) ((0:ℤ),(0:ℤ)) 0
    (by decide) (by decide) (by decide)

end Minesweeper
